import Mathlib

/-!
Formal model of the Horizon Sort list-processing engine: the text normalizer,
frequency engine (`Analyzer.handleAnalyze`), set comparator
(`Comparator.handleCompare`), batch partitioner (`Batcher.processedData` and its
label/format helpers), and the AI categorization gateway
(`geminiService.categorizeTitles`).  Each definition is a direct translation of
the corresponding TypeScript source; theorems about the spec's claims follow the
definitions.
-/

namespace HrSort

/-- Text Normalizer (`Analyzer.tsx`, `Comparator.tsx`, `Batcher.tsx`,
`TopicSorter.tsx` all inline the same expression):
`raw.split(/\n/).map(l => l.trim()).filter(l => l !== '')`. -/
def normalize (raw : String) : List String :=
  ((raw.splitOn "\n").map String.trim).filter (fun l => decide (l ≠ ""))

/-- One insertion step of a stable insertion sort: the inserted element is placed
before the first element `y` with `le x y`, hence before every element it ties
with.  Elements inserted earlier come from later input positions, so ties keep
input order. -/
def insertLe {α : Type} (le : α → α → Bool) (x : α) : List α → List α
  | [] => [x]
  | y :: ys => if le x y then x :: y :: ys else y :: insertLe le x ys

/-- Stable comparison sort, modelling JavaScript `Array.prototype.sort(cmp)`
(stable per the ECMAScript spec).  For a comparator that is a total preorder the
stable sorted result is unique, so any stable sort gives the array the JS
engine produces. -/
def sortLe {α : Type} (le : α → α → Bool) : List α → List α
  | [] => []
  | x :: xs => insertLe le x (sortLe le xs)

/-- Lexicographic string comparison on the character sequences, modelling the
default (no-comparator) JS `Array.prototype.sort()` ordering of strings. -/
def strLe (a b : String) : Bool := decide (a.data ≤ b.data)

/-- `FrequencyItem` of `types.ts`: `{ title: string, count: number }`. -/
structure FreqItem where
  title : String
  count : Nat
deriving DecidableEq, Repr

/-- Comparator `(a, b) => b.count - a.count` of `Analyzer.tsx` line 43: `a` may
stay before `b` exactly when `b.count ≤ a.count` (sort descending by count). -/
def countDescLe (p q : FreqItem) : Bool := decide (q.count ≤ p.count)

/-- One step of the frequency accumulation loop of `Analyzer.tsx` lines 34-37:
`freqMap[line] = (freqMap[line] || 0) + 1` on a `Record<string, number>`,
modelled as an association list in property-creation order (assigning to an
existing key leaves its position unchanged; a new key is appended).  The order
in which `Object.entries` later enumerates these properties is computed by
`jsEntries`, not by this list directly. -/
def bumpCount (acc : List FreqItem) (line : String) : List FreqItem :=
  if acc.any (fun p => decide (p.title = line)) then
    acc.map (fun p => if p.title = line then { p with count := p.count + 1 } else p)
  else
    acc ++ [{ title := line, count := 1 }]

/-- The own properties of the `freqMap` record of `Analyzer.tsx` lines 32-37 in
property-creation order, i.e. the distinct lines in encounter order of first
occurrence, each with its occurrence count. -/
def freqProps (lines : List String) : List FreqItem := lines.foldl bumpCount []

/-- Numeric value of a digit string (used to order array-index keys). -/
def digitsVal (l : List Char) : Nat :=
  l.foldl (fun acc c => acc * 10 + (c.toNat - 48)) 0

/-- Whether a string is a canonical array-index key in the ECMAScript sense:
a string of ASCII digits with no leading zero (except `"0"` itself) whose
numeric value is below `2^32 - 1`.  `Object.entries` enumerates such keys
first, in ascending numeric order, before the remaining string keys in
insertion order. -/
def isArrayIndex (s : String) : Bool :=
  !s.data.isEmpty
    && s.data.all (fun c => decide ('0' ≤ c) && decide (c ≤ '9'))
    && (decide (s.data = ['0']) || decide (s.data.head? ≠ some '0'))
    && decide (digitsVal s.data < 4294967295)

/-- Ascending numeric order on array-index titles. -/
def numAscLe (p q : FreqItem) : Bool :=
  decide (digitsVal p.title.data ≤ digitsVal q.title.data)

/-- The order in which `Object.entries` enumerates a plain JS object's own
string-keyed properties (ECMAScript `OrdinaryOwnPropertyKeys`): array-index
keys first in ascending numeric order, then the remaining keys in
property-creation order. -/
def jsEntries (props : List FreqItem) : List FreqItem :=
  sortLe numAscLe (props.filter (fun p => isArrayIndex p.title))
    ++ props.filter (fun p => !isArrayIndex p.title)

/-- `Object.entries(freqMap)` of `Analyzer.tsx` line 40: the frequency map's
distinct-line/count pairs in JS enumeration order. -/
def buildFreq (lines : List String) : List FreqItem := jsEntries (freqProps lines)

/-- Insertion-ordered deduplication, modelling `new Set(lines)` (`Analyzer.tsx`
line 27, `Comparator.tsx` lines 624-626): JS `Set` iterates in insertion
order. -/
def dedupFirst (lines : List String) : List String :=
  lines.foldl (fun acc l => if l ∈ acc then acc else acc ++ [l]) []

/-- Stats block of `AnalysisResult` (`types.ts` / `Analyzer.tsx` lines 50-55).
`processedAt` is the wall-clock display timestamp, passed in as `now`. -/
structure AnalysisStats where
  total : Nat
  unique : Nat
  duplicates : Nat
  processedAt : String
deriving DecidableEq, Repr

/-- `AnalysisResult` of `types.ts` as produced by `Analyzer.handleAnalyze`. -/
structure AnalysisResult where
  stats : AnalysisStats
  uniqueList : List String
  duplicateList : List String
  frequencyMap : List FreqItem
deriving DecidableEq, Repr

/-- Core of `Analyzer.handleAnalyze` (`Analyzer.tsx` lines 23-59) after the
input has been normalized into `lines`; `now` is the captured timestamp
(`new Date().toLocaleTimeString()`). -/
def analyzeLines (now : String) (lines : List String) : AnalysisResult :=
  let total := lines.length
  let uniqueL := dedupFirst lines
  let frequencyList := sortLe countDescLe (buildFreq lines)
  { stats :=
      { total := total
      , unique := uniqueL.length
      , duplicates := total - uniqueL.length
      , processedAt := now }
  , uniqueList := sortLe strLe uniqueL
  , duplicateList := (frequencyList.filter (fun p => decide (1 < p.count))).map FreqItem.title
  , frequencyMap := frequencyList }

/-- `Analyzer.handleAnalyze` (`Analyzer.tsx` lines 18-60): the guard
`if (!inputText.trim()) return;` yields `none`; otherwise the analysis result
is stored. -/
def handleAnalyze (now inputText : String) : Option AnalysisResult :=
  if inputText.trim = "" then none
  else some (analyzeLines now (normalize inputText))

/-- Stats block of `ComparisonResult` (`Comparator.tsx` lines 656-662). -/
structure CompStats where
  inBoth : Nat
  inAOnly : Nat
  inBOnly : Nat
  totalA : Nat
  totalB : Nat
deriving DecidableEq, Repr

/-- `ComparisonResult` of `types.ts` as produced by `Comparator.handleCompare`. -/
structure ComparisonResult where
  intersection : List String
  aOnly : List String
  bOnly : List String
  stats : CompStats
deriving DecidableEq, Repr

/-- Core of `Comparator.handleCompare` (`Comparator.tsx` lines 622-664) on the
two normalized line lists.  The single `forEach` over `setA` that pushes each
element into either `intersection` or `aOnly` is the pair of order-preserving
filters below. -/
def compareLines (linesA linesB : List String) : ComparisonResult :=
  let setA := dedupFirst linesA
  let setB := dedupFirst linesB
  let inter := setA.filter (fun x => decide (x ∈ setB))
  let aOnly := setA.filter (fun x => decide (x ∉ setB))
  let bOnly := setB.filter (fun x => decide (x ∉ setA))
  { intersection := sortLe strLe inter
  , aOnly := sortLe strLe aOnly
  , bOnly := sortLe strLe bOnly
  , stats :=
      { inBoth := inter.length
      , inAOnly := aOnly.length
      , inBOnly := bOnly.length
      , totalA := setA.length
      , totalB := setB.length } }

/-- `Comparator.handleCompare` on the raw textarea contents. -/
def handleCompare (listA listB : String) : ComparisonResult :=
  compareLines (normalize listA) (normalize listB)

/-- Similarity index displayed by `Comparator.tsx` line 758:
`inBoth / (totalA + totalB - inBoth || 1)`.  JS `x || 1` replaces a zero
denominator by 1; arithmetic is modelled over `ℚ` (exact for the boundary
values 0 and 1 the claims are about, since IEEE division yields exactly 0 for
`0/1` and exactly 1 for `n/n`). -/
def similarity (s : CompStats) : ℚ :=
  let denom : ℚ := (s.totalA : ℚ) + (s.totalB : ℚ) - (s.inBoth : ℚ)
  (s.inBoth : ℚ) / (if denom = 0 then 1 else denom)

/-- `SplitMode` of `Batcher.tsx`: split by set capacity or by fixed set count. -/
inductive SplitMode where
  | size
  | count
deriving DecidableEq, Repr

/-- `NamingScheme` of `Batcher.tsx`: numeric (`1, 2, 3`) or alphabetic
(`A, B, C`) set labels. -/
inductive NamingScheme where
  | numeric
  | alpha
deriving DecidableEq, Repr

/-- `BatchSet` of `Batcher.tsx`: a 0-based id and the lines of the set. -/
structure BatchSet where
  id : Nat
  items : List String
deriving DecidableEq, Repr

/-- The chunking loop of `Batcher.tsx` lines 321-327:
`for (let i = 0; i < lines.length; i += setSize) sets.push(lines.slice(i, i + setSize))`,
written with an explicit iteration budget `fuel` so that the definition is
structural.  With `fuel ≥ l.length` and `s ≥ 1` (the only way the program calls
it) the budget is never exhausted and the result is exactly the loop's. -/
def chunkGo (s : Nat) : Nat → List String → List (List String)
  | _, [] => []
  | 0, _ :: _ => []
  | fuel + 1, x :: xs => (x :: xs).take s :: chunkGo s fuel ((x :: xs).drop s)

/-- Partition `l` into consecutive chunks of size `s` (last chunk possibly
shorter). -/
def chunkList (s : Nat) (l : List String) : List (List String) :=
  chunkGo s l.length l

/-- Effective set size of `Batcher.tsx` lines 308-316: under the `size` mode it
is `Math.max(1, inputValue)`; under the `count` mode it is
`Math.ceil(lines.length / Math.max(1, inputValue))` (exact ceiling division on
naturals: `(len + t - 1) / t`). -/
def effSize (len : Nat) (mode : SplitMode) (inputValue : Int) : Nat :=
  match mode with
  | SplitMode.size => (max 1 inputValue).toNat
  | SplitMode.count =>
    let targetSets := (max 1 inputValue).toNat
    (len + targetSets - 1) / targetSets

/-- Core of the `processedData` memo of `Batcher.tsx` lines 299-331 on the
normalized line list.  `inputValue` is the slider value (an `Int`, so that the
degenerate inputs `n ≤ 0` of the claims are representable). -/
def batchLines (lines : List String) (mode : SplitMode) (inputValue : Int) :
    List BatchSet × Nat :=
  if lines.isEmpty then ([], 0)
  else
    let setSize : Nat := effSize lines.length mode inputValue
    let sets := (chunkList setSize lines).enum.map (fun p => { id := p.1, items := p.2 })
    (sets, lines.length)

/-- `Batcher.processedData`: normalize the textarea contents, then batch. -/
def processedData (inputText : String) (mode : SplitMode) (inputValue : Int) :
    List BatchSet × Nat :=
  batchLines (normalize inputText) mode inputValue

/-- The `while (i > 0)` loop of `Batcher.getAlphaLabel` (`Batcher.tsx` lines
287-296) on the 1-based value `i`, with an explicit iteration budget (the loop
prepends `String.fromCharCode(65 + (i-1) % 26)` and continues with
`Math.floor((i-1) / 26)`; one unit of budget per loop entry is enough since the
value strictly decreases). -/
def alphaGo : Nat → Nat → String
  | 0, _ => ""
  | _ + 1, 0 => ""
  | fuel + 1, i + 1 => alphaGo fuel (i / 26) ++ String.singleton (Char.ofNat (65 + i % 26))

/-- `Batcher.getAlphaLabel`: Excel-style column name of a 0-based index
(`0 → "A"`, `25 → "Z"`, `26 → "AA"`, ...). -/
def getAlphaLabel (index : Nat) : String := alphaGo (index + 1) (index + 1)

/-- Bijective base-26 representation of a 1-based value: `alphaGo` with enough
budget.  `getAlphaLabel index = alphaRep (index + 1)`. -/
def alphaRep (i : Nat) : String := alphaGo i i

/-- Set label of `Batcher.tsx` lines 541-543: `` `Set ${set.id + 1}` `` for the
numeric scheme, `` `Set ${getAlphaLabel(set.id)}` `` for the alphabetic one. -/
def setLabel (scheme : NamingScheme) (id : Nat) : String :=
  match scheme with
  | NamingScheme.numeric => "Set " ++ toString (id + 1)
  | NamingScheme.alpha => "Set " ++ getAlphaLabel id

/-- Per-item formatted string of `Batcher.copySet` (`Batcher.tsx` lines
336-342): optional `` `${offset + idx + 1}. ` `` index, then the optional
`` `${pre} ` `` custom marker (JS tests the string's truthiness, i.e. `≠ ""`),
then the item text. -/
def formatItem (useIndexing : Bool) (pre : String) (off idx : Nat) (item : String) :
    String :=
  (if useIndexing then toString (off + idx + 1) ++ ". " else "")
    ++ (if pre = "" then "" else pre ++ " ")
    ++ item

/-- `Batcher.copySet` (`Batcher.tsx` lines 334-347): the clipboard text for one
set, items formatted and joined with newlines. -/
def copySet (useIndexing : Bool) (pre : String) (items : List String) (off : Nat) :
    String :=
  String.intercalate "\n" (items.enum.map (fun p => formatItem useIndexing pre off p.1 p.2))

/-- `Batcher.getFormattedCount` (`Batcher.tsx` lines 350-355): sum of the sizes
of all sets preceding `setIndex`. -/
def getFormattedCount (setIndex : Nat) (sets : List BatchSet) : Nat :=
  ((sets.take setIndex).map (fun s => s.items.length)).sum

/-- Outcome of the synchronous validation stage of
`geminiService.categorizeTitles` (lines 8-27), before any network traffic:
either it throws the missing-key error, or returns `{ categories: [] }`
immediately, or it proceeds to issue exactly one request whose title payload is
`payload`. -/
inductive GatewayAction where
  | failMissingKey
  | returnEmpty
  | sendRequest (payload : List String)
deriving DecidableEq, Repr

/-- Validation stage of `geminiService.categorizeTitles` (lines 8-27), in
source order: `if (!apiKey) throw`, then (after the no-I/O client construction)
`if (titles.length === 0) return { categories: [] }`, then
`titles.slice(0, 500)` becomes the request payload. -/
def categorizeTitlesStep (titles : List String) (apiKey : String) : GatewayAction :=
  if apiKey = "" then GatewayAction.failMissingKey
  else if titles.length = 0 then GatewayAction.returnEmpty
  else GatewayAction.sendRequest (titles.take 500)

/-- JSON values, as produced by the JS builtin `JSON.parse`. -/
inductive JsValue where
  | null
  | bool (b : Bool)
  | num (n : Int)
  | str (s : String)
  | arr (elems : List JsValue)
  | obj (fields : List (String × JsValue))

/-- Whether a JSON value is a string. -/
def isStr : JsValue → Bool
  | JsValue.str _ => true
  | _ => false

/-- Whether a JSON value is an array of strings. -/
def isStringArray : JsValue → Bool
  | JsValue.arr xs => xs.all isStr
  | _ => false

/-- Field lookup in a JSON object. -/
def lookupField (fields : List (String × JsValue)) (k : String) : Option JsValue :=
  match fields.find? (fun p => decide (p.1 = k)) with
  | some p => some p.2
  | none => none

/-- Whether a JSON value conforms to the per-category object of the
`responseSchema` of `geminiService.ts` lines 52-62: an object with required
fields `name` (string) and `items` (array of strings). -/
def isCategoryObj (v : JsValue) : Bool :=
  match v with
  | JsValue.obj fs =>
    (match lookupField fs "name" with
     | some (JsValue.str _) => true
     | _ => false)
    && (match lookupField fs "items" with
        | some w => isStringArray w
        | _ => false)
  | _ => false

/-- Whether a JSON value conforms to the `responseSchema` of `geminiService.ts`
lines 46-66: an object with a required `categories` array of category
objects. -/
def matchesSchema (v : JsValue) : Bool :=
  match v with
  | JsValue.obj fs =>
    match lookupField fs "categories" with
    | some (JsValue.arr cs) => cs.all isCategoryObj
    | _ => false
  | _ => false

/-- Typed failures of the gateway (`geminiService.ts` throws `Error` values;
the three throw sites are distinguished here by which statement throws). -/
inductive GatewayError where
  | missingCredential
  | emptyResponse
  | malformedResponse
deriving DecidableEq, Repr

/-- Response handling of `geminiService.categorizeTitles` (lines 70-84).
`text` is `response.text` (`none` models `undefined`); `parsed` is the result
of the JS builtin `JSON.parse(text)` (`none` models a thrown `SyntaxError`).
The code is `if (!text) throw "No response from AI"` — true for both
`undefined` and `""` — followed by `JSON.parse(text) as AIAnalysisResult`; the
TypeScript `as` cast performs no runtime check, so a successfully parsed value
is returned unchanged. -/
def handleResponse (text : Option String) (parsed : Option JsValue) :
    Except GatewayError JsValue :=
  match text with
  | none => Except.error GatewayError.emptyResponse
  | some t =>
    if t = "" then Except.error GatewayError.emptyResponse
    else
      match parsed with
      | none => Except.error GatewayError.malformedResponse
      | some v => Except.ok v

/-! Lemmas about the stable insertion sort. -/

theorem insertLe_perm {α : Type} (le : α → α → Bool) (x : α) (l : List α) :
    (insertLe le x l).Perm (x :: l) := by
  induction l with
  | nil => simp [insertLe]
  | cons y ys ih =>
    simp only [insertLe]
    split
    · exact List.Perm.refl _
    · exact ((ih.cons y).trans (List.Perm.swap x y ys))

theorem sortLe_perm {α : Type} (le : α → α → Bool) (l : List α) :
    (sortLe le l).Perm l := by
  induction l with
  | nil => simp [sortLe]
  | cons x xs ih =>
    exact (insertLe_perm le x (sortLe le xs)).trans (ih.cons x)

theorem sortLe_mem {α : Type} (le : α → α → Bool) (a : α) (l : List α) :
    a ∈ sortLe le l ↔ a ∈ l :=
  (sortLe_perm le l).mem_iff

theorem sortLe_nodup {α : Type} (le : α → α → Bool) {l : List α} (h : l.Nodup) :
    (sortLe le l).Nodup :=
  (sortLe_perm le l).nodup_iff.mpr h

theorem insertLe_pairwise {α : Type} {le : α → α → Bool}
    (htrans : ∀ a b c, le a b = true → le b c = true → le a c = true)
    (htot : ∀ a b, le a b = true ∨ le b a = true)
    {x : α} {l : List α} (h : l.Pairwise (fun a b => le a b = true)) :
    (insertLe le x l).Pairwise (fun a b => le a b = true) := by
  induction l with
  | nil => simp [insertLe]
  | cons y ys ih =>
    rcases List.pairwise_cons.mp h with ⟨hy, hys⟩
    simp only [insertLe]
    split
    · rename_i hxy
      refine List.pairwise_cons.mpr ⟨?_, h⟩
      intro b hb
      rcases hb with _ | hb
      · exact hxy
      · exact htrans x y b hxy (hy b (by assumption))
    · rename_i hxy
      have hyx : le y x = true := by
        rcases htot x y with h' | h'
        · exact absurd h' hxy
        · exact h'
      refine List.pairwise_cons.mpr ⟨?_, ih hys⟩
      intro b hb
      rcases List.mem_cons.mp ((insertLe_perm le x ys).mem_iff.mp hb) with rfl | hb'
      · exact hyx
      · exact hy b hb'

theorem sortLe_pairwise {α : Type} {le : α → α → Bool}
    (htrans : ∀ a b c, le a b = true → le b c = true → le a c = true)
    (htot : ∀ a b, le a b = true ∨ le b a = true)
    (l : List α) :
    (sortLe le l).Pairwise (fun a b => le a b = true) := by
  induction l with
  | nil => simp [sortLe]
  | cons x xs ih => exact insertLe_pairwise htrans htot ih

theorem strLe_trans (a b c : String) :
    strLe a b = true → strLe b c = true → strLe a c = true := by
  simp only [strLe, decide_eq_true_eq]
  exact le_trans

theorem strLe_total (a b : String) : strLe a b = true ∨ strLe b a = true := by
  simp only [strLe, decide_eq_true_eq]
  exact le_total a.data b.data

theorem strLe_antisymm (a b : String) :
    strLe a b = true → strLe b a = true → a = b := by
  simp only [strLe, decide_eq_true_eq]
  intro h1 h2
  exact String.ext (le_antisymm h1 h2)

theorem dedupGo_mem (lines : List String) :
    ∀ (acc : List String) (x : String),
      x ∈ List.foldl (fun acc l => if l ∈ acc then acc else acc ++ [l]) acc lines
        ↔ x ∈ acc ∨ x ∈ lines := by
  induction lines with
  | nil => simp
  | cons y ys ih =>
    intro acc x
    simp only [List.foldl_cons, ih]
    by_cases hy : y ∈ acc
    · simp only [if_pos hy, List.mem_cons]
      constructor
      · rintro (h | h)
        · exact Or.inl h
        · exact Or.inr (Or.inr h)
      · rintro (h | rfl | h)
        · exact Or.inl h
        · exact Or.inl hy
        · exact Or.inr h
    · simp only [if_neg hy, List.mem_append, List.mem_singleton, List.mem_cons]
      tauto

theorem dedupGo_nodup (lines : List String) :
    ∀ acc : List String, acc.Nodup →
      (List.foldl (fun acc l => if l ∈ acc then acc else acc ++ [l]) acc lines).Nodup := by
  induction lines with
  | nil => exact fun acc h => h
  | cons y ys ih =>
    intro acc hacc
    simp only [List.foldl_cons]
    by_cases hy : y ∈ acc
    · simpa [if_pos hy] using ih acc hacc
    · refine ih _ ?_
      simp [if_neg hy, List.nodup_append, hacc, hy]

theorem dedupFirst_mem (lines : List String) (x : String) :
    x ∈ dedupFirst lines ↔ x ∈ lines := by
  simp [dedupFirst, dedupGo_mem]

theorem dedupFirst_nodup (lines : List String) : (dedupFirst lines).Nodup :=
  dedupGo_nodup lines [] List.nodup_nil

theorem dedupFirst_eq_nil_iff (lines : List String) :
    dedupFirst lines = [] ↔ lines = [] := by
  constructor
  · intro h
    rcases lines with _ | ⟨y, ys⟩
    · rfl
    · have : y ∈ dedupFirst (y :: ys) := (dedupFirst_mem _ y).mpr (List.mem_cons_self y ys)
      rw [h] at this
      cases this
  · rintro rfl
    rfl

/-! Lemmas about the frequency accumulation fold. -/

theorem chunkGo_nil (s fuel : Nat) : chunkGo s fuel [] = [] := by
  cases fuel <;> rfl

theorem chunkGo_flatten {s : Nat} (hs : 1 ≤ s) :
    ∀ (fuel : Nat) (l : List String), l.length ≤ fuel → (chunkGo s fuel l).flatten = l := by
  intro fuel
  induction fuel with
  | zero =>
    intro l hl
    have : l = [] := List.length_eq_zero.mp (Nat.le_antisymm hl (Nat.zero_le _))
    subst this
    rfl
  | succ f ih =>
    intro l hl
    cases l with
    | nil => rfl
    | cons x xs =>
      simp only [chunkGo, List.flatten_cons]
      rw [ih ((x :: xs).drop s)
        (by simp only [List.length_drop, List.length_cons] at hl ⊢; omega)]
      exact List.take_append_drop s (x :: xs)

theorem chunkGo_eq_nil_iff {s : Nat} (fuel : Nat) (l : List String)
    (hl : l.length ≤ fuel) : chunkGo s fuel l = [] ↔ l = [] := by
  constructor
  · intro h
    cases l with
    | nil => rfl
    | cons x xs =>
      cases fuel with
      | zero => simp at hl
      | succ f => simp [chunkGo] at h
  · rintro rfl
    exact chunkGo_nil s fuel

theorem chunkGo_dropLast {s : Nat} (hs : 1 ≤ s) :
    ∀ (fuel : Nat) (l : List String), l.length ≤ fuel →
      ∀ c ∈ (chunkGo s fuel l).dropLast, c.length = s := by
  intro fuel
  induction fuel with
  | zero =>
    intro l hl c hc
    have : l = [] := List.length_eq_zero.mp (Nat.le_antisymm hl (Nat.zero_le _))
    subst this
    cases hc
  | succ f ih =>
    intro l hl c hc
    cases l with
    | nil => cases hc
    | cons x xs =>
      simp only [chunkGo] at hc
      by_cases hrest : chunkGo s f ((x :: xs).drop s) = []
      · rw [hrest] at hc
        cases hc
      · rw [List.dropLast_cons_of_ne_nil hrest] at hc
        rcases List.mem_cons.mp hc with rfl | hc'
        · have hdrop : (x :: xs).drop s ≠ [] :=
            fun hd => hrest (hd ▸ chunkGo_nil s f)
          have hlen : s < (x :: xs).length := by
            by_contra hle
            exact hdrop (List.drop_eq_nil_of_le (by omega))
          simp only [List.length_take]
          omega
        · exact ih ((x :: xs).drop s)
            (by simp only [List.length_drop, List.length_cons] at hl ⊢; omega) c hc'

theorem chunkGo_length {s : Nat} (hs : 1 ≤ s) :
    ∀ (fuel : Nat) (l : List String), l.length ≤ fuel →
      (chunkGo s fuel l).length = (l.length + s - 1) / s := by
  intro fuel
  induction fuel with
  | zero =>
    intro l hl
    have : l = [] := List.length_eq_zero.mp (Nat.le_antisymm hl (Nat.zero_le _))
    subst this
    simp only [chunkGo_nil, List.length_nil]
    exact (Nat.div_eq_of_lt (by omega)).symm
  | succ f ih =>
    intro l hl
    cases l with
    | nil =>
      simp only [chunkGo_nil, List.length_nil]
      exact (Nat.div_eq_of_lt (by omega)).symm
    | cons x xs =>
      simp only [List.length_cons] at hl
      simp only [chunkGo, List.length_cons]
      rw [ih ((x :: xs).drop s)
        (by simp only [List.length_drop, List.length_cons]; omega)]
      rw [List.length_drop]
      simp only [List.length_cons]
      by_cases hcase : xs.length + 1 ≤ s
      · have h0 : xs.length + 1 - s = 0 := by omega
        rw [h0]
        have hleft : (0 + s - 1) / s = 0 := Nat.div_eq_of_lt (by omega)
        rw [hleft]
        have hright : (xs.length + 1 + s - 1) / s = 1 :=
          Nat.div_eq_of_lt_le (by omega) (by omega)
        omega
      · have h1 : xs.length + 1 - s + s - 1 = xs.length := by omega
        rw [h1]
        have h2 : xs.length + 1 + s - 1 = xs.length + s := by omega
        rw [h2, Nat.add_div_right _ (by omega : 0 < s)]

theorem ceil_div_ceil_le (L t : Nat) (hL : 1 ≤ L) (ht : 1 ≤ t) :
    (L + (L + t - 1) / t - 1) / ((L + t - 1) / t) ≤ t := by
  have hs : 1 ≤ (L + t - 1) / t := (Nat.one_le_div_iff (by omega)).mpr (by omega)
  have h1 := Nat.div_add_mod (L + t - 1) t
  have h2 : (L + t - 1) % t < t := Nat.mod_lt _ (by omega)
  have h3 : L ≤ t * ((L + t - 1) / t) := by omega
  have h4 : L + (L + t - 1) / t - 1 < (t + 1) * ((L + t - 1) / t) := by
    have hmul : (t + 1) * ((L + t - 1) / t) = t * ((L + t - 1) / t) + (L + t - 1) / t :=
      Nat.succ_mul t ((L + t - 1) / t)
    omega
  have h5 := (Nat.div_lt_iff_lt_mul (by omega : 0 < (L + t - 1) / t)).mpr h4
  omega

theorem effSize_pos (len : Nat) (mode : SplitMode) (n : Int) (hlen : 1 ≤ len) :
    1 ≤ effSize len mode n := by
  cases mode with
  | size =>
    simp only [effSize]
    omega
  | count =>
    simp only [effSize]
    refine (Nat.one_le_div_iff ?_).mpr ?_ <;> omega

theorem batchLines_sets {lines : List String} (mode : SplitMode) (n : Int)
    (h : lines ≠ []) :
    (batchLines lines mode n).1
      = (chunkList (effSize lines.length mode n) lines).enum.map
          (fun p => { id := p.1, items := p.2 }) := by
  have hne : lines.isEmpty = false := by
    cases lines with
    | nil => exact absurd rfl h
    | cons x xs => rfl
  simp [batchLines, hne]

theorem map_dropLast {α β : Type} (f : α → β) :
    ∀ l : List α, (l.dropLast).map f = (l.map f).dropLast := by
  intro l
  induction l with
  | nil => rfl
  | cons a t ih =>
    cases t with
    | nil => rfl
    | cons b t' =>
      calc ((a :: b :: t').dropLast).map f
          = (a :: (b :: t').dropLast).map f := by
            rw [List.dropLast_cons_of_ne_nil (List.cons_ne_nil b t')]
        _ = f a :: ((b :: t').dropLast).map f := List.map_cons f a _
        _ = f a :: ((b :: t').map f).dropLast := by rw [ih]
        _ = (f a :: (b :: t').map f).dropLast := by
            rw [List.dropLast_cons_of_ne_nil (by simp : (b :: t').map f ≠ [])]
        _ = ((a :: b :: t').map f).dropLast := by simp only [List.map_cons]

theorem batchLines_map_items {lines : List String} (mode : SplitMode) (n : Int)
    (h : lines ≠ []) :
    (batchLines lines mode n).1.map BatchSet.items
      = chunkList (effSize lines.length mode n) lines := by
  rw [batchLines_sets mode n h, List.map_map]
  have : (BatchSet.items ∘ fun p : Nat × List String => { id := p.1, items := p.2 })
      = Prod.snd := by
    funext p
    rfl
  rw [this, List.enum_map_snd]

/-- Position of an item inside the concatenation of consecutive chunks: the
element at in-chunk offset `i` of chunk `k` sits at global offset
`(sum of the lengths of the chunks before k) + i`. -/
theorem flatten_get {α : Type} :
    ∀ (chunks : List (List α)) (k : Nat) (hk : k < chunks.length) (i : Nat)
      (hi : i < (chunks.get ⟨k, hk⟩).length),
      ∃ hp : ((chunks.take k).map List.length).sum + i < chunks.flatten.length,
        chunks.flatten.get ⟨((chunks.take k).map List.length).sum + i, hp⟩
          = (chunks.get ⟨k, hk⟩).get ⟨i, hi⟩ := by
  intro chunks
  induction chunks with
  | nil => intro k hk; simp at hk
  | cons c rest ih =>
    intro k hk i hi
    cases k with
    | zero =>
      simp only [List.take_zero, List.map_nil, List.sum_nil, Nat.zero_add]
      have hic : i < c.length := by simpa using hi
      have hp : i < (c :: rest).flatten.length := by
        simp only [List.flatten_cons, List.length_append]
        omega
      refine ⟨hp, ?_⟩
      simp only [List.flatten_cons, List.get_eq_getElem]
      rw [List.getElem_append_left hic]
      rfl
    | succ k' =>
      have hk' : k' < rest.length := by simpa using hk
      have hi' : i < (rest.get ⟨k', hk'⟩).length := by simpa using hi
      obtain ⟨hp', heq⟩ := ih k' hk' i hi'
      simp only [List.take_succ_cons, List.map_cons, List.sum_cons]
      have hp : c.length + ((rest.take k').map List.length).sum + i
          < (c :: rest).flatten.length := by
        simp only [List.flatten_cons, List.length_append]
        omega
      refine ⟨by omega, ?_⟩
      simp only [List.flatten_cons, List.get_eq_getElem]
      rw [List.getElem_append_right (by omega : c.length
        ≤ c.length + ((rest.take k').map List.length).sum + i)]
      simp only [List.get_eq_getElem] at heq
      have harith : c.length + ((rest.take k').map List.length).sum + i - c.length
          = ((rest.take k').map List.length).sum + i := by omega
      simp only [harith]
      exact heq

theorem batchLines_length_chunks {lines : List String} (mode : SplitMode) (n : Int)
    (h : lines ≠ []) :
    (batchLines lines mode n).1.length
      = (chunkList (effSize lines.length mode n) lines).length := by
  rw [batchLines_sets mode n h, List.length_map, List.enum_length]

theorem batchLines_get_items {lines : List String} (mode : SplitMode) (n : Int)
    (h : lines ≠ []) (k : Nat) (hk : k < (batchLines lines mode n).1.length) :
    ∃ hk' : k < (chunkList (effSize lines.length mode n) lines).length,
      ((batchLines lines mode n).1.get ⟨k, hk⟩).items
        = (chunkList (effSize lines.length mode n) lines).get ⟨k, hk'⟩ := by
  have hk' : k < (chunkList (effSize lines.length mode n) lines).length := by
    rw [← batchLines_length_chunks mode n h]
    exact hk
  refine ⟨hk', ?_⟩
  have hsets := batchLines_sets mode n h
  simp only [List.get_eq_getElem]
  rw [List.getElem_of_eq hsets hk, List.getElem_map, List.getElem_enum]

theorem getFormattedCount_eq {lines : List String} (mode : SplitMode) (n : Int)
    (h : lines ≠ []) (k : Nat) :
    getFormattedCount k (batchLines lines mode n).1
      = (((chunkList (effSize lines.length mode n) lines).take k).map List.length).sum := by
  rw [getFormattedCount, batchLines_sets mode n h]
  rw [List.map_take, List.map_map]
  have h1 : ((fun s : BatchSet => s.items.length)
        ∘ fun p : Nat × List String => { id := p.1, items := p.2 })
      = fun p : Nat × List String => p.2.length := by
    funext p
    rfl
  rw [h1]
  have h2 : (chunkList (effSize lines.length mode n) lines).enum.map
        (fun p : Nat × List String => p.2.length)
      = ((chunkList (effSize lines.length mode n) lines).enum.map Prod.snd).map
          List.length := by
    rw [List.map_map]
    rfl
  rw [h2, List.enum_map_snd, ← List.map_take]

/-! Comparator helpers. -/

theorem filter_length_partition (l : List String) (p : String → Bool) :
    (l.filter p).length + (l.filter (fun x => !p x)).length = l.length :=
  (List.length_eq_length_filter_add p).symm

theorem sorted_nodup_ext {l₁ l₂ : List String}
    (hs₁ : l₁.Pairwise (fun a b => strLe a b = true))
    (hs₂ : l₂.Pairwise (fun a b => strLe a b = true))
    (hn₁ : l₁.Nodup) (hn₂ : l₂.Nodup)
    (hmem : ∀ x, x ∈ l₁ ↔ x ∈ l₂) : l₁ = l₂ := by
  haveI : IsAntisymm String (fun a b => strLe a b = true) :=
    ⟨fun a b => strLe_antisymm a b⟩
  exact List.eq_of_perm_of_sorted ((List.perm_ext_iff_of_nodup hn₁ hn₂).mpr hmem) hs₁ hs₂

/-! Claim theorems. -/

/-- C4: the Set Comparator's result satisfies
`|intersection| + |aOnly| = totalA` and `|intersection| + |bOnly| = totalB`
with `totalA`/`totalB` the unique cardinalities of each side; the three output
lists are pairwise disjoint and without duplicates, together they cover
exactly the union of the (unique elements of the) two inputs, and each is
sorted lexicographically ascending whatever the input order. -/
theorem C4_comparator_invariants (linesA linesB : List String) :
    (compareLines linesA linesB).stats.inBoth + (compareLines linesA linesB).stats.inAOnly
        = (compareLines linesA linesB).stats.totalA
    ∧ (compareLines linesA linesB).stats.inBoth + (compareLines linesA linesB).stats.inBOnly
        = (compareLines linesA linesB).stats.totalB
    ∧ (compareLines linesA linesB).stats.totalA = (dedupFirst linesA).length
    ∧ (compareLines linesA linesB).stats.totalB = (dedupFirst linesB).length
    ∧ (compareLines linesA linesB).intersection.Disjoint (compareLines linesA linesB).aOnly
    ∧ (compareLines linesA linesB).intersection.Disjoint (compareLines linesA linesB).bOnly
    ∧ (compareLines linesA linesB).aOnly.Disjoint (compareLines linesA linesB).bOnly
    ∧ (∀ x, (x ∈ (compareLines linesA linesB).intersection
          ∨ x ∈ (compareLines linesA linesB).aOnly
          ∨ x ∈ (compareLines linesA linesB).bOnly)
        ↔ (x ∈ linesA ∨ x ∈ linesB))
    ∧ (compareLines linesA linesB).intersection.Nodup
    ∧ (compareLines linesA linesB).aOnly.Nodup
    ∧ (compareLines linesA linesB).bOnly.Nodup
    ∧ (compareLines linesA linesB).intersection.Pairwise (fun a b => strLe a b = true)
    ∧ (compareLines linesA linesB).aOnly.Pairwise (fun a b => strLe a b = true)
    ∧ (compareLines linesA linesB).bOnly.Pairwise (fun a b => strLe a b = true) := by
  have hmemI : ∀ x, x ∈ (compareLines linesA linesB).intersection
      ↔ (x ∈ linesA ∧ x ∈ linesB) := by
    intro x
    show x ∈ sortLe strLe ((dedupFirst linesA).filter _) ↔ _
    rw [sortLe_mem, List.mem_filter]
    simp [dedupFirst_mem]
  have hmemA : ∀ x, x ∈ (compareLines linesA linesB).aOnly
      ↔ (x ∈ linesA ∧ x ∉ linesB) := by
    intro x
    show x ∈ sortLe strLe ((dedupFirst linesA).filter _) ↔ _
    rw [sortLe_mem, List.mem_filter]
    simp [dedupFirst_mem]
  have hmemB : ∀ x, x ∈ (compareLines linesA linesB).bOnly
      ↔ (x ∈ linesB ∧ x ∉ linesA) := by
    intro x
    show x ∈ sortLe strLe ((dedupFirst linesB).filter _) ↔ _
    rw [sortLe_mem, List.mem_filter]
    simp [dedupFirst_mem]
  refine ⟨?_, ?_, rfl, rfl, ?_, ?_, ?_, ?_, ?_, ?_, ?_, ?_, ?_, ?_⟩
  · show ((dedupFirst linesA).filter _).length + ((dedupFirst linesA).filter _).length
      = (dedupFirst linesA).length
    have h : (fun x => decide (x ∉ dedupFirst linesB))
        = (fun x => !(fun y => decide (y ∈ dedupFirst linesB)) x) := by
      funext x
      simp [decide_not]
    rw [h]
    exact filter_length_partition (dedupFirst linesA) (fun y => decide (y ∈ dedupFirst linesB))
  · show ((dedupFirst linesA).filter _).length + ((dedupFirst linesB).filter _).length
      = (dedupFirst linesB).length
    have hperm : ((dedupFirst linesA).filter (fun x => decide (x ∈ dedupFirst linesB))).Perm
        ((dedupFirst linesB).filter (fun x => decide (x ∈ dedupFirst linesA))) := by
      refine (List.perm_ext_iff_of_nodup ?_ ?_).mpr ?_
      · exact (dedupFirst_nodup linesA).filter _
      · exact (dedupFirst_nodup linesB).filter _
      · intro x
        rw [List.mem_filter, List.mem_filter]
        simp only [decide_eq_true_eq]
        tauto
    rw [hperm.length_eq]
    have h : (fun x => decide (x ∉ dedupFirst linesA))
        = (fun x => !(fun y => decide (y ∈ dedupFirst linesA)) x) := by
      funext x
      simp [decide_not]
    rw [h]
    exact filter_length_partition (dedupFirst linesB) (fun y => decide (y ∈ dedupFirst linesA))
  · intro x hx hy
    rw [hmemI x] at hx
    rw [hmemA x] at hy
    exact hy.2 hx.2
  · intro x hx hy
    rw [hmemI x] at hx
    rw [hmemB x] at hy
    exact hy.2 hx.1
  · intro x hx hy
    rw [hmemA x] at hx
    rw [hmemB x] at hy
    exact hx.2 hy.1
  · intro x
    rw [hmemI x, hmemA x, hmemB x]
    tauto
  · exact sortLe_nodup strLe ((dedupFirst_nodup linesA).filter _)
  · exact sortLe_nodup strLe ((dedupFirst_nodup linesA).filter _)
  · exact sortLe_nodup strLe ((dedupFirst_nodup linesB).filter _)
  · exact sortLe_pairwise strLe_trans strLe_total _
  · exact sortLe_pairwise strLe_trans strLe_total _
  · exact sortLe_pairwise strLe_trans strLe_total _

/-- C5: the displayed similarity score is `inBoth / (totalA + totalB - inBoth)`
(Jaccard index over the two unique sets) whenever that denominator is nonzero;
the `|| 1` guard makes the divisor nonzero in every case, and two empty inputs
give score 0 while comparing a non-empty input with itself gives score 1
(100%). -/
theorem C5_similarity_boundaries (linesA linesB : List String) :
    (((compareLines linesA linesB).stats.totalA : ℚ)
          + (compareLines linesA linesB).stats.totalB
          - (compareLines linesA linesB).stats.inBoth ≠ 0 →
        similarity (compareLines linesA linesB).stats
          = ((compareLines linesA linesB).stats.inBoth : ℚ)
            / (((compareLines linesA linesB).stats.totalA : ℚ)
                + (compareLines linesA linesB).stats.totalB
                - (compareLines linesA linesB).stats.inBoth))
    ∧ (∀ s : CompStats,
        (if ((s.totalA : ℚ) + s.totalB - s.inBoth) = 0 then (1 : ℚ)
         else (s.totalA : ℚ) + s.totalB - s.inBoth) ≠ 0)
    ∧ (linesA = [] → linesB = [] → similarity (compareLines linesA linesB).stats = 0)
    ∧ (linesA = linesB → linesA ≠ [] →
        similarity (compareLines linesA linesB).stats = 1) := by
  refine ⟨?_, ?_, ?_, ?_⟩
  · intro h
    simp only [similarity]
    rw [if_neg h]
  · intro s
    by_cases h : ((s.totalA : ℚ) + s.totalB - s.inBoth) = 0
    · rw [if_pos h]
      norm_num
    · rw [if_neg h]
      exact h
  · rintro rfl rfl
    have hstats : (compareLines [] []).stats =
        { inBoth := 0, inAOnly := 0, inBOnly := 0, totalA := 0, totalB := 0 } := rfl
    rw [hstats]
    norm_num [similarity]
  · rintro rfl hne
    have hfilter : (dedupFirst linesA).filter (fun x => decide (x ∈ dedupFirst linesA))
        = dedupFirst linesA :=
      List.filter_eq_self.mpr (by intro a ha; simpa using ha)
    have hBoth : (compareLines linesA linesA).stats.inBoth = (dedupFirst linesA).length := by
      show ((dedupFirst linesA).filter _).length = _
      rw [hfilter]
    have hA : (compareLines linesA linesA).stats.totalA = (dedupFirst linesA).length := rfl
    have hB : (compareLines linesA linesA).stats.totalB = (dedupFirst linesA).length := rfl
    have hpos : 0 < (dedupFirst linesA).length := by
      rcases List.length_pos.mpr ((not_iff_not.mpr (dedupFirst_eq_nil_iff linesA)).mpr hne)
        with h
      exact h
    simp only [similarity, hBoth, hA, hB]
    have hcast : ((dedupFirst linesA).length : ℚ) ≠ 0 := by
      have : (dedupFirst linesA).length ≠ 0 := by omega
      exact_mod_cast this
    have hd : ((dedupFirst linesA).length : ℚ) + (dedupFirst linesA).length
        - (dedupFirst linesA).length = ((dedupFirst linesA).length : ℚ) := by ring
    rw [hd, if_neg hcast]
    exact div_self hcast

/-- C10 (implicit): the Set Comparator is symmetric — swapping the inputs
swaps the roles of the outputs: same intersection, `aOnly`/`bOnly` exchanged,
`inBoth` unchanged, the remaining stats exchanged, and the derived similarity
score identical. -/
theorem C10_comparator_symmetry (linesA linesB : List String) :
    (compareLines linesA linesB).intersection = (compareLines linesB linesA).intersection
    ∧ (compareLines linesA linesB).aOnly = (compareLines linesB linesA).bOnly
    ∧ (compareLines linesA linesB).bOnly = (compareLines linesB linesA).aOnly
    ∧ (compareLines linesA linesB).stats.inBoth = (compareLines linesB linesA).stats.inBoth
    ∧ (compareLines linesA linesB).stats.inAOnly
        = (compareLines linesB linesA).stats.inBOnly
    ∧ (compareLines linesA linesB).stats.inBOnly
        = (compareLines linesB linesA).stats.inAOnly
    ∧ (compareLines linesA linesB).stats.totalA = (compareLines linesB linesA).stats.totalB
    ∧ (compareLines linesA linesB).stats.totalB = (compareLines linesB linesA).stats.totalA
    ∧ similarity (compareLines linesA linesB).stats
        = similarity (compareLines linesB linesA).stats := by
  have hperm : ((dedupFirst linesA).filter (fun x => decide (x ∈ dedupFirst linesB))).Perm
      ((dedupFirst linesB).filter (fun x => decide (x ∈ dedupFirst linesA))) := by
    refine (List.perm_ext_iff_of_nodup ?_ ?_).mpr ?_
    · exact (dedupFirst_nodup linesA).filter _
    · exact (dedupFirst_nodup linesB).filter _
    · intro x
      rw [List.mem_filter, List.mem_filter]
      simp only [decide_eq_true_eq]
      tauto
  have hinter : (compareLines linesA linesB).intersection
      = (compareLines linesB linesA).intersection := by
    refine sorted_nodup_ext (sortLe_pairwise strLe_trans strLe_total _)
      (sortLe_pairwise strLe_trans strLe_total _)
      (sortLe_nodup strLe ((dedupFirst_nodup linesA).filter _))
      (sortLe_nodup strLe ((dedupFirst_nodup linesB).filter _)) ?_
    intro x
    show x ∈ sortLe strLe _ ↔ x ∈ sortLe strLe _
    rw [sortLe_mem, sortLe_mem]
    exact hperm.mem_iff
  have hBoth : (compareLines linesA linesB).stats.inBoth
      = (compareLines linesB linesA).stats.inBoth := hperm.length_eq
  have hTotA : (compareLines linesA linesB).stats.totalA
      = (compareLines linesB linesA).stats.totalB := rfl
  have hTotB : (compareLines linesA linesB).stats.totalB
      = (compareLines linesB linesA).stats.totalA := rfl
  refine ⟨hinter, rfl, rfl, hBoth, rfl, rfl, hTotA, hTotB, ?_⟩
  simp only [similarity, hBoth, hTotA, hTotB]
  have hcomm : ((compareLines linesB linesA).stats.totalB : ℚ)
        + (compareLines linesB linesA).stats.totalA
      = ((compareLines linesB linesA).stats.totalA : ℚ)
        + (compareLines linesB linesA).stats.totalB := add_comm _ _
  rw [hcomm]

/-- C1: the Batch Partitioner reproduces the normalized input exactly when the
sets' items are concatenated in id order (ids are 0,1,2,... in list order);
under the capacity mode every set except possibly the last has exactly
`max(1, n)` items; under the fixed-count mode at most `max(1, n)` sets are
produced (for `n ≤ 0` the configured value is clamped to 1); and an empty
normalized input yields zero sets. -/
theorem C1_partition_complete (lines : List String) (n : Int) :
    (∀ mode, ((batchLines lines mode n).1.map BatchSet.items).flatten = lines)
    ∧ (∀ mode, (batchLines lines mode n).1.map BatchSet.id
        = List.range (batchLines lines mode n).1.length)
    ∧ (∀ b ∈ (batchLines lines SplitMode.size n).1.dropLast,
        b.items.length = (max 1 n).toNat)
    ∧ (batchLines lines SplitMode.count n).1.length ≤ (max 1 n).toNat
    ∧ (lines = [] → ∀ mode, (batchLines lines mode n).1 = [])
    ∧ (∀ txt mode, processedData txt mode n = batchLines (normalize txt) mode n) := by
  refine ⟨?_, ?_, ?_, ?_, ?_, fun _ _ => rfl⟩
  · intro mode
    by_cases h : lines = []
    · subst h; rfl
    · have hlen : 1 ≤ lines.length := List.length_pos.mpr h
      rw [batchLines_map_items mode n h]
      exact chunkGo_flatten (effSize_pos lines.length mode n hlen) lines.length lines
        (le_refl _)
  · intro mode
    by_cases h : lines = []
    · subst h; rfl
    · rw [batchLines_sets mode n h]
      simp only [List.map_map, List.length_map, List.enum_length]
      have hcomp : (BatchSet.id ∘ fun p : Nat × List String => { id := p.1, items := p.2 })
          = Prod.fst := funext fun p => rfl
      rw [hcomp, List.enum_map_fst]
  · intro b hb
    by_cases h : lines = []
    · rw [show lines = [] from h] at hb
      cases hb
    · have hlen : 1 ≤ lines.length := List.length_pos.mpr h
      have hs := effSize_pos lines.length SplitMode.size n hlen
      have hb' : b.items ∈ ((batchLines lines SplitMode.size n).1.map BatchSet.items).dropLast := by
        rw [← map_dropLast]
        exact List.mem_map_of_mem BatchSet.items hb
      rw [batchLines_map_items SplitMode.size n h] at hb'
      have := chunkGo_dropLast hs lines.length lines (le_refl _) b.items hb'
      simpa [effSize] using this
  · by_cases h : lines = []
    · subst h
      exact Nat.zero_le _
    · have hlen : 1 ≤ lines.length := List.length_pos.mpr h
      have hs := effSize_pos lines.length SplitMode.count n hlen
      rw [batchLines_length_chunks SplitMode.count n h]
      rw [show chunkList (effSize lines.length SplitMode.count n) lines
          = chunkGo (effSize lines.length SplitMode.count n) lines.length lines from rfl]
      rw [chunkGo_length hs lines.length lines (le_refl _)]
      have ht : 1 ≤ (max 1 n).toNat := by omega
      simpa [effSize] using ceil_div_ceil_le lines.length (max 1 n).toNat hlen ht
  · rintro rfl mode
    rfl

/-- C9: for every set produced by the batcher and every item position inside
it, the item is the input line at global offset
`getFormattedCount(setIndex) + inGroupOffset` (sum of the sizes of the
preceding sets plus the in-set offset), and the copied per-item string is the
optional 1-based running index followed by `". "`, then the optional custom
marker followed by a space, then the item text, in exactly that order;
`copySet` joins these formatted strings with newlines. -/
theorem C9_item_formatting (lines : List String) (mode : SplitMode) (n : Int)
    (useIdx : Bool) (pre : String)
    (k : Fin (batchLines lines mode n).1.length)
    (i : Fin (((batchLines lines mode n).1.get k).items.length)) :
    (∃ hp : getFormattedCount k.1 (batchLines lines mode n).1 + i.1 < lines.length,
      ((batchLines lines mode n).1.get k).items.get i
        = lines.get ⟨getFormattedCount k.1 (batchLines lines mode n).1 + i.1, hp⟩)
    ∧ formatItem useIdx pre (getFormattedCount k.1 (batchLines lines mode n).1) i.1
          (((batchLines lines mode n).1.get k).items.get i)
        = (if useIdx then
            toString (getFormattedCount k.1 (batchLines lines mode n).1 + i.1 + 1) ++ ". "
          else "")
          ++ (if pre = "" then "" else pre ++ " ")
          ++ ((batchLines lines mode n).1.get k).items.get i
    ∧ copySet useIdx pre (((batchLines lines mode n).1.get k).items)
          (getFormattedCount k.1 (batchLines lines mode n).1)
        = String.intercalate "\n"
            (((((batchLines lines mode n).1.get k).items).enum).map
              (fun p => formatItem useIdx pre
                (getFormattedCount k.1 (batchLines lines mode n).1) p.1 p.2)) := by
  have hne : lines ≠ [] := by
    intro h
    have h0 : (batchLines lines mode n).1.length = 0 := by
      rw [show lines = [] from h]
      rfl
    have hk := k.2
    omega
  refine ⟨?_, rfl, rfl⟩
  obtain ⟨hk', hitems⟩ := batchLines_get_items mode n hne k.1 k.2
  have hi' : i.1 < ((chunkList (effSize lines.length mode n) lines).get ⟨k.1, hk'⟩).length := by
    rw [← hitems]
    exact i.2
  obtain ⟨hp', heq⟩ := flatten_get (chunkList (effSize lines.length mode n) lines) k.1 hk' i.1 hi'
  have hflat : (chunkList (effSize lines.length mode n) lines).flatten = lines :=
    chunkGo_flatten (effSize_pos lines.length mode n (List.length_pos.mpr hne))
      lines.length lines (le_refl _)
  have hoff := getFormattedCount_eq mode n hne k.1
  have hlenflat : (chunkList (effSize lines.length mode n) lines).flatten.length
      = lines.length := congrArg List.length hflat
  have hp : getFormattedCount k.1 (batchLines lines mode n).1 + i.1 < lines.length := by
    rw [hoff]
    omega
  refine ⟨hp, ?_⟩
  have hget : ((batchLines lines mode n).1.get k).items.get i
      = ((chunkList (effSize lines.length mode n) lines).get ⟨k.1, hk'⟩).get ⟨i.1, hi'⟩ := by
    simp only [List.get_eq_getElem]
    exact List.getElem_of_eq hitems i.2
  rw [hget]
  simp only [List.get_eq_getElem] at heq ⊢
  rw [← heq]
  simp only [hoff]
  exact List.getElem_of_eq hflat _

theorem alphaGo_stable : ∀ i f : Nat, i ≤ f → alphaGo f i = alphaGo i i := by
  intro i
  induction i using Nat.strong_induction_on with
  | _ i ih =>
    intro f hif
    cases i with
    | zero =>
      cases f with
      | zero => rfl
      | succ g => rfl
    | succ j =>
      cases f with
      | zero => omega
      | succ g =>
        show alphaGo g (j / 26) ++ _ = alphaGo j (j / 26) ++ _
        rw [ih (j / 26) (by have := Nat.div_le_self j 26; omega) g
              (by have := Nat.div_le_self j 26; omega),
            ih (j / 26) (by have := Nat.div_le_self j 26; omega) j (Nat.div_le_self j 26)]

/-- C8: the numeric scheme labels group `id` as `id + 1` (1-based); the
alphabetic scheme is the bijective base-26 transform computed by the
`(n-1) mod 26` / `(n-1) div 26` recurrence on the 1-based value, with the
spec's sample values `0 → A`, `25 → Z`, `26 → AA`, `27 → AB`, `701 → ZZ`,
`702 → AAA`. -/
theorem C8_label_schemes :
    (∀ id : Nat, setLabel NamingScheme.numeric id = "Set " ++ toString (id + 1))
    ∧ (∀ id : Nat, setLabel NamingScheme.alpha id = "Set " ++ getAlphaLabel id)
    ∧ getAlphaLabel 0 = "A"
    ∧ getAlphaLabel 25 = "Z"
    ∧ getAlphaLabel 26 = "AA"
    ∧ getAlphaLabel 27 = "AB"
    ∧ getAlphaLabel 701 = "ZZ"
    ∧ getAlphaLabel 702 = "AAA"
    ∧ (∀ id : Nat, getAlphaLabel id = alphaRep (id + 1))
    ∧ (∀ m : Nat, 1 ≤ m →
        alphaRep m = alphaRep ((m - 1) / 26)
          ++ String.singleton (Char.ofNat (65 + (m - 1) % 26))) := by
  refine ⟨fun _ => rfl, fun _ => rfl, by decide, by decide, by decide, by decide,
    by decide, by decide, fun _ => rfl, ?_⟩
  intro m hm
  cases m with
  | zero => omega
  | succ j =>
    show alphaGo j (j / 26) ++ _ = _
    simp only [Nat.add_sub_cancel]
    rw [alphaGo_stable (j / 26) j (Nat.div_le_self j 26)]
    rfl

/-- C2: the gateway's validations apply in order — an empty credential fails
before anything else (in particular before any network request is built); with
a credential present, an empty title list returns the empty category list with
no request; otherwise exactly one request is issued and its payload is the
first 500 titles (positions 0..499 of the input), a silent truncation whenever
more than 500 titles are submitted. -/
theorem C2_gateway_validation (titles : List String) (apiKey : String) :
    (apiKey = "" → categorizeTitlesStep titles apiKey = GatewayAction.failMissingKey)
    ∧ (apiKey ≠ "" → titles = [] →
        categorizeTitlesStep titles apiKey = GatewayAction.returnEmpty)
    ∧ (apiKey ≠ "" → titles ≠ [] →
        categorizeTitlesStep titles apiKey = GatewayAction.sendRequest (titles.take 500))
    ∧ (titles.take 500).length = min 500 titles.length
    ∧ (titles.length ≤ 500 → titles.take 500 = titles)
    ∧ (∀ i, i < 500 → ∀ hlen : i < titles.length,
        ∃ ht : i < (titles.take 500).length,
          (titles.take 500).get ⟨i, ht⟩ = titles.get ⟨i, hlen⟩) := by
  refine ⟨?_, ?_, ?_, List.length_take 500 titles, List.take_of_length_le, ?_⟩
  · intro h
    simp [categorizeTitlesStep, h]
  · intro h1 h2
    subst h2
    simp [categorizeTitlesStep, h1]
  · intro h1 h2
    have hlen : titles.length ≠ 0 := fun h => h2 (List.length_eq_zero.mp h)
    simp [categorizeTitlesStep, h1, hlen]
  · intro i hi hlen
    have ht : i < (titles.take 500).length := by
      rw [List.length_take]
      omega
    refine ⟨ht, ?_⟩
    simp only [List.get_eq_getElem]
    rw [List.getElem_take]

/-- C7 (amended): the gateway fails with the empty-response error when the
backend returns no text (undefined or empty); it fails with a decode error
when the text does not parse as JSON at all; but JSON text that parses and
violates the schema is not detected — the parsed value is returned as-is (the
TypeScript cast performs no runtime check), and no coverage of the submitted
titles is verified. -/
theorem C7_response_handling (text : Option String) (parsed : Option JsValue) :
    ((text = none ∨ text = some "") →
        handleResponse text parsed = Except.error GatewayError.emptyResponse)
    ∧ (∀ s, text = some s → s ≠ "" → parsed = none →
        handleResponse text parsed = Except.error GatewayError.malformedResponse)
    ∧ (∀ s v, text = some s → s ≠ "" → parsed = some v →
        handleResponse text parsed = Except.ok v) := by
  refine ⟨?_, ?_, ?_⟩
  · rintro (rfl | rfl)
    · rfl
    · rfl
  · rintro s rfl hs rfl
    simp [handleResponse, hs]
  · rintro s v rfl hs rfl
    simp [handleResponse, hs]

/-- C7 counterexample: the backend text `"{}"` is valid JSON (parsing to the
empty object), violates the response schema, and yet the gateway returns it
unchanged instead of failing with a decode error — refuting the claim that
schema violations are surfaced as a decode failure. -/
theorem C7_counterexample :
    matchesSchema (JsValue.obj []) = false
    ∧ handleResponse (some "\x7b\x7d") (some (JsValue.obj []))
        = Except.ok (JsValue.obj [])
    ∧ handleResponse (some "\x7b\x7d") (some (JsValue.obj []))
        ≠ Except.error GatewayError.malformedResponse := by
  refine ⟨rfl, rfl, ?_⟩
  intro h
  have h2 : Except.ok (JsValue.obj [])
      = (Except.error GatewayError.malformedResponse : Except GatewayError JsValue) := h
  exact Except.noConfusion h2

/-! Concrete witnesses instantiating the claim theorems. -/

theorem C1_partition_complete_witness :
    ((batchLines ["a", "b", "c"] SplitMode.size 2).1.map BatchSet.items).flatten
        = ["a", "b", "c"]
    ∧ (batchLines ["a", "b", "c"] SplitMode.count 2).1.length ≤ (max 1 (2 : Int)).toNat :=
  ⟨(C1_partition_complete ["a", "b", "c"] 2).1 SplitMode.size,
    (C1_partition_complete ["a", "b", "c"] 2).2.2.2.1⟩

theorem C2_gateway_validation_witness :
    ("key" : String) ≠ ""
    ∧ (["a", "b"] : List String) ≠ []
    ∧ categorizeTitlesStep ["a", "b"] "key"
        = GatewayAction.sendRequest ((["a", "b"] : List String).take 500) :=
  ⟨by decide, by decide,
    (C2_gateway_validation ["a", "b"] "key").2.2.1 (by decide) (by decide)⟩

theorem C4_comparator_invariants_witness :
    (compareLines ["x", "y", "z"] ["y", "z", "w"]).stats.inBoth
        + (compareLines ["x", "y", "z"] ["y", "z", "w"]).stats.inAOnly
      = (compareLines ["x", "y", "z"] ["y", "z", "w"]).stats.totalA :=
  (C4_comparator_invariants ["x", "y", "z"] ["y", "z", "w"]).1

theorem C5_similarity_boundaries_witness :
    similarity (compareLines [] []).stats = 0
    ∧ similarity (compareLines ["a"] ["a"]).stats = 1 :=
  ⟨(C5_similarity_boundaries [] []).2.2.1 rfl rfl,
    (C5_similarity_boundaries ["a"] ["a"]).2.2.2 rfl (by decide)⟩

theorem C7_response_handling_witness :
    ("x" : String) ≠ ""
    ∧ handleResponse (some "x") (some JsValue.null) = Except.ok JsValue.null :=
  ⟨by decide,
    (C7_response_handling (some "x") (some JsValue.null)).2.2 "x" JsValue.null rfl
      (by decide) rfl⟩

theorem C8_label_schemes_witness :
    1 ≤ 27
    ∧ alphaRep 27 = alphaRep ((27 - 1) / 26)
        ++ String.singleton (Char.ofNat (65 + (27 - 1) % 26)) :=
  ⟨by decide, C8_label_schemes.2.2.2.2.2.2.2.2.2 27 (by decide)⟩

theorem C9_item_formatting_witness :
    ∃ hp : getFormattedCount 1 (batchLines ["a", "b", "c"] SplitMode.size 2).1 + 0
        < (["a", "b", "c"] : List String).length,
      ((batchLines ["a", "b", "c"] SplitMode.size 2).1.get ⟨1, by decide⟩).items.get
          ⟨0, by decide⟩
        = (["a", "b", "c"] : List String).get
            ⟨getFormattedCount 1 (batchLines ["a", "b", "c"] SplitMode.size 2).1 + 0, hp⟩ :=
  (C9_item_formatting ["a", "b", "c"] SplitMode.size 2 true "x" ⟨1, by decide⟩
    ⟨0, by decide⟩).1

theorem C10_comparator_symmetry_witness :
    (compareLines ["a", "b"] ["b", "c"]).intersection
      = (compareLines ["b", "c"] ["a", "b"]).intersection :=
  (C10_comparator_symmetry ["a", "b"] ["b", "c"]).1

end HrSort
